import Mathlib

/-!
Shallow embedding of the CTC best-path decoder of `BestPathCL.py`
(repository Rhythmblue/CTCDecoder).

Scores are modelled as rationals: the decoder only ever compares scores,
and the order of the demo's float literals (0.4, 0, 0.6) coincides with
the order of the corresponding rationals (2/5, 0, 3/5).

The repository's host file dispatches two OpenCL kernels from the file
`BestPathCL.cl`, which is not part of the host source; the kernel-side
behaviour (per-timestep argmax reduction, sequential path collapse,
blank padding) is modelled from the spec, anchored on the host dispatch
code and on the demo in `__main__` (the demo expects the empty string for
the matrix [[0.4, 0, 0.6], [0.4, 0, 0.6]] with alphabet "ab", which pins
the time-major score layout and the blank index maxC - 1).
-/

abbrev Score := ℚ

/-- Modelled from the spec: one comparison step of the ArgmaxReducer
(the kernel file `BestPathCL.cl` is missing from the source tree).
A later candidate `b` displaces an earlier candidate `a` only when its
score is strictly greater, so on a tie the earlier candidate survives. -/
def combine (a b : ℕ × Score) : ℕ × Score :=
  if a.2 < b.2 then b else a

/-- Index/score pairs for the entries of a score list, indices starting at `n`. -/
def enumFromIdx : ℕ → List Score → List (ℕ × Score)
  | _, [] => []
  | n, s :: r => (n, s) :: enumFromIdx (n + 1) r

/-- Index/score pairs for a score list, indices starting at 0. -/
def enumScores (scores : List Score) : List (ℕ × Score) :=
  enumFromIdx 0 scores

/-- Modelled from the spec: serial ArgmaxReducer (missing kernel file
`BestPathCL.cl`) — a left-to-right scan keeping the best (index, score)
pair, replacing it only on strictly greater scores. -/
def argmaxSerial (scores : List Score) : ℕ :=
  match enumScores scores with
  | [] => 0
  | x :: l => (l.foldl combine x).1

/-- Modelled from the spec: one level of the argmax reduction tree
(missing kernel file `BestPathCL.cl`) — adjacent candidates are combined
pairwise, the earlier one surviving ties. -/
def pairCombine : List (ℕ × Score) → List (ℕ × Score)
  | a :: b :: rest => combine a b :: pairCombine rest
  | l => l

/-- Fuel-indexed reduction tree: repeatedly apply `pairCombine` levels.
Fuel `l.length` always suffices, since every level strictly shortens a
list of length at least two (see `treeReduceFuel_foldl`). -/
def treeReduceFuel : ℕ → List (ℕ × Score) → ℕ × Score
  | _, [] => (0, 0)
  | _, [x] => x
  | 0, x :: _ :: _ => x
  | n + 1, x :: y :: r => treeReduceFuel n (combine x y :: pairCombine r)

/-- Modelled from the spec: tree-reduction ArgmaxReducer (missing kernel
file `BestPathCL.cl`), preserving left-to-right tie precedence. -/
def treeReduce (l : List (ℕ × Score)) : ℕ × Score :=
  treeReduceFuel l.length l

/-- Argmax of a score list computed by the reduction tree. -/
def argmaxTree (scores : List Score) : ℕ :=
  (treeReduce (enumScores scores)).1

/-- Modelled from the spec: the PathCollapser scan (missing kernel file
`BestPathCL.cl`).  `last` is the last emitted value, `none` playing the
role of the sentinel -1; a label is emitted only when it differs from the
last emitted one. -/
def collapseAux : Option ℕ → List ℕ → List ℕ
  | _, [] => []
  | last, cur :: rest =>
    if last = some cur then collapseAux last rest
    else cur :: collapseAux (some cur) rest

/-- Collapse of a raw label sequence, starting from the sentinel. -/
def collapseScan (raw : List ℕ) : List ℕ :=
  collapseAux none raw

/-- Modelled from the spec: collapse then pad with the blank index to
length `T` (missing kernel file `BestPathCL.cl`). -/
def collapsePad (raw : List ℕ) (blank T : ℕ) : List ℕ :=
  collapseScan raw ++ List.replicate (T - (collapseScan raw).length) blank

/-- Decoder state: configuration fixed at construction plus the reused
host-side result buffer `res` (`self.res`, overwritten by every call). -/
structure CLWrapper where
  batchSize : ℕ
  maxT : ℕ
  maxC : ℕ
  kernelVariant : ℕ
  res : List (List ℕ)

/-- Scores of the `maxC` effective classes at timestep `t` of one batch
element.  A batch element is a T x maxC matrix, rows are timesteps: the
demo feeds `mat` whose rows are per-timestep score vectors, and the
expected demo output pins this (time-major) kernel-side layout. -/
def scoresAt (maxC : ℕ) (mat : List (List Score)) (t : ℕ) : List Score :=
  (List.range maxC).map fun c => (mat.getD t []).getD c 0

/-- Raw best path of one batch element, serial argmax per timestep
(fused kernel `bestPathAndCollapse`, one lane per timestep). -/
def rawPathSerial (maxT maxC : ℕ) (mat : List (List Score)) : List ℕ :=
  (List.range maxT).map fun t => argmaxSerial (scoresAt maxC mat t)

/-- Raw best path of one batch element, tree-reduction argmax per
timestep (two-phase kernel `bestPath`, maxC lanes per timestep). -/
def rawPathTree (maxT maxC : ℕ) (mat : List (List Score)) : List ℕ :=
  (List.range maxT).map fun t => argmaxTree (scoresAt maxC mat t)

/-- Decoded row for one batch element: kernelVariant 1 is the fused
kernel, anything else takes the two-phase path (the host `if/else` of
`compute`, src lines 82-87).  The blank written by the collapse padding
is `maxC - 1`, one past the real alphabet of `maxC - 1` characters. -/
def decodeRow (w : CLWrapper) (mat : List (List Score)) : List ℕ :=
  if w.kernelVariant = 1 then
    collapsePad (rawPathSerial w.maxT w.maxC mat) (w.maxC - 1) w.maxT
  else
    collapsePad (rawPathTree w.maxT w.maxC mat) (w.maxC - 1) w.maxT

/-- `CLWrapper.compute` (src lines 75-91): decode every batch element
`b < batchSize`, overwrite the reused result buffer, and return it.
The host code performs no shape validation on `batch`. -/
def CLWrapper.compute (w : CLWrapper) (batch : List (List (List Score))) :
    CLWrapper × List (List ℕ) :=
  let out := (List.range w.batchSize).map fun b => decodeRow w (batch.getD b [])
  ({ w with res := out }, out)

/-- The character-accumulation loop of `ctcBestPathCL` (src lines
103-110): scan a result row, stop at the first label equal to
`blank = len(classes)`, otherwise append `classes[label]`.  (For labels
in range, `List.getD` agrees with Python's `classes[label]`.) -/
def mapRowAux (classes : List Char) : List ℕ → List Char
  | [] => []
  | l :: rest =>
    if l = classes.length then []
    else classes.getD l '?' :: mapRowAux classes rest

/-- The string built for one batch element by `ctcBestPathCL`. -/
def mapRow (classes : List Char) (row : List ℕ) : String :=
  ⟨mapRowAux classes row⟩

/-- `ctcBestPathCL` (src lines 94-112): run `compute`, then map each of
the `batchSize` result rows to a string through the alphabet. -/
def ctcBestPathCL (batch : List (List (List Score))) (classes : List Char)
    (w : CLWrapper) : List String :=
  (List.range w.batchSize).map fun b =>
    mapRow classes (((w.compute batch).2).getD b [])

/-- Host-side construction (`CLWrapper.__init__`, src lines 11-45):
the only explicit repository-side check is `assert(kernelVariant in
[1, 2])` (line 25); the `np.zeros` allocations (lines 39-40) reject
negative dimensions.  The OpenCL platform/device/buffer/program calls
are the external compute backend and are outside the embedding.  On
success the reused result buffer starts as batchSize x maxT zeros. -/
def CLWrapper.init (batchSize maxT maxC kernelVariant : Int) : Option CLWrapper :=
  if (kernelVariant = 1 ∨ kernelVariant = 2) ∧
      0 ≤ batchSize ∧ 0 ≤ maxT ∧ 0 ≤ maxC then
    some ⟨batchSize.toNat, maxT.toNat, maxC.toNat, kernelVariant.toNat,
      List.replicate batchSize.toNat (List.replicate maxT.toNat 0)⟩
  else none

/-- The demo alphabet `classes = "ab"` (src line 116). -/
def demoClasses : List Char := ['a', 'b']

/-- The demo matrix (src line 117): two timestep rows of three scores;
0.4 = 2/5 and 0.6 = 3/5 exactly (written in reduced form so that the
kernel can evaluate comparisons; see `demo_matrices_eq`). -/
def demoMat : List (List Score) :=
  [[Rat.mk' 2 5, 0, Rat.mk' 3 5], [Rat.mk' 2 5, 0, Rat.mk' 3 5]]

/-- A Scenario-B style matrix: argmax 0 at timestep 0, argmax 1 at
timestep 1, so the decoded row contains no blank. -/
def demoMatB : List (List Score) :=
  [[Rat.mk' 3 5, 0, Rat.mk' 2 5], [0, Rat.mk' 3 5, Rat.mk' 2 5]]

/-- A Scenario-C style matrix: the same argmax 0 at both timesteps, so
the duplicate is collapsed and the decoded row exposes the written blank
padding value. -/
def demoMatC : List (List Score) :=
  [[Rat.mk' 3 5, 0, Rat.mk' 2 5], [Rat.mk' 3 5, 0, Rat.mk' 2 5]]

/-- The wrapper the demo constructs: `CLWrapper(1, maxT, maxC)` with
`maxT, maxC = mat.shape = (2, 3)` and the default kernelVariant 2
(src lines 118-119); the result buffer starts as 1 x 2 zeros. -/
def demoW : CLWrapper := ⟨1, 2, 3, 2, [[0, 0]]⟩

/-- The logical shape of a nested-list score tensor:
(number of elements, rows of the first element, columns of its first row). -/
def tensorShape (batch : List (List (List Score))) : ℕ × ℕ × ℕ :=
  (batch.length, (batch.headD []).length, ((batch.headD []).headD []).length)

theorem demo_matrices_eq :
    demoMat = [[2/5, 0, 3/5], [2/5, 0, 3/5]] ∧
    demoMatB = [[3/5, 0, 2/5], [0, 3/5, 2/5]] ∧
    demoMatC = [[3/5, 0, 2/5], [3/5, 0, 2/5]] := by
  refine ⟨?_, ?_, ?_⟩ <;>
    norm_num [demoMat, demoMatB, demoMatC, Rat.mk'_eq_divInt, Rat.divInt_eq_div]

theorem combine_eq_or (a b : ℕ × Score) : combine a b = a ∨ combine a b = b := by
  unfold combine; split_ifs <;> simp

theorem left_le_combine (a b : ℕ × Score) : a.2 ≤ (combine a b).2 := by
  unfold combine; split_ifs with h
  · exact le_of_lt h
  · exact le_refl _

theorem right_le_combine (a b : ℕ × Score) : b.2 ≤ (combine a b).2 := by
  unfold combine; split_ifs with h
  · exact le_refl _
  · exact le_of_not_lt h

theorem combine_assoc (a b c : ℕ × Score) :
    combine (combine a b) c = combine a (combine b c) := by
  unfold combine
  split_ifs <;> first | rfl | (exfalso; linarith)

theorem foldl_combine_mem (l : List (ℕ × Score)) :
    ∀ a : ℕ × Score, l.foldl combine a ∈ a :: l := by
  induction l with
  | nil => intro a; simp
  | cons p l ih =>
    intro a
    have h := ih (combine a p)
    rw [List.foldl_cons]
    rcases List.mem_cons.1 h with h1 | h1
    · rcases combine_eq_or a p with h2 | h2
      · rw [h1, h2]; exact List.mem_cons_self _ _
      · rw [h1, h2]; exact List.mem_cons.2 (Or.inr (List.mem_cons_self _ _))
    · exact List.mem_cons.2 (Or.inr (List.mem_cons.2 (Or.inr h1)))

theorem foldl_combine_le (l : List (ℕ × Score)) :
    ∀ (a p : ℕ × Score), p ∈ a :: l → p.2 ≤ (l.foldl combine a).2 := by
  induction l with
  | nil =>
    intro a p hp
    rw [List.mem_singleton] at hp
    subst hp; exact le_refl _
  | cons q l ih =>
    intro a p hp
    rw [List.foldl_cons]
    have hcomb : (combine a q).2 ≤ (l.foldl combine (combine a q)).2 :=
      ih (combine a q) (combine a q) (List.mem_cons_self _ _)
    rcases List.mem_cons.1 hp with h1 | h1
    · subst h1
      exact le_trans (left_le_combine p q) hcomb
    · rcases List.mem_cons.1 h1 with h2 | h2
      · subst h2
        exact le_trans (right_le_combine a p) hcomb
      · exact ih (combine a q) p (List.mem_cons.2 (Or.inr h2))

theorem foldl_combine_leftmost (l : List (ℕ × Score)) :
    ∀ a : ℕ × Score, (∀ q ∈ l, a.1 < q.1) →
      l.Pairwise (fun u v => u.1 < v.1) →
      ∀ p ∈ a :: l, p.2 = (l.foldl combine a).2 → (l.foldl combine a).1 ≤ p.1 := by
  induction l with
  | nil =>
    intro a _ _ p hp _
    rw [List.mem_singleton] at hp
    subst hp; exact le_refl _
  | cons q l ih =>
    intro a ha hpw p hp hval
    rw [List.foldl_cons] at hval ⊢
    have hq : ∀ r ∈ l, q.1 < r.1 := fun r hr => (List.pairwise_cons.1 hpw).1 r hr
    have hl : l.Pairwise (fun u v => u.1 < v.1) := (List.pairwise_cons.1 hpw).2
    have hc : ∀ r ∈ l, (combine a q).1 < r.1 := by
      intro r hr
      rcases combine_eq_or a q with h2 | h2 <;> rw [h2]
      · exact ha r (List.mem_cons.2 (Or.inr hr))
      · exact hq r hr
    have hub : (combine a q).2 ≤ (l.foldl combine (combine a q)).2 :=
      foldl_combine_le l (combine a q) (combine a q) (List.mem_cons_self _ _)
    rcases List.mem_cons.1 hp with h1 | h1
    · rw [h1] at hval ⊢
      by_cases hab : a.2 < q.2
      · exact absurd hval
          (ne_of_lt (lt_of_lt_of_le (lt_of_lt_of_le hab (right_le_combine a q)) hub))
      · have hca : combine a q = a := if_neg hab
        exact ih (combine a q) hc hl a (by rw [hca]; exact List.mem_cons_self _ _) hval
    · rcases List.mem_cons.1 h1 with h2 | h2
      · rw [h2] at hval ⊢
        by_cases hab : a.2 < q.2
        · have hcq : combine a q = q := if_pos hab
          exact ih (combine a q) hc hl q (by rw [hcq]; exact List.mem_cons_self _ _) hval
        · have hca : combine a q = a := if_neg hab
          have h3 : q.2 ≤ a.2 := le_of_not_lt hab
          have h4 : a.2 ≤ (l.foldl combine (combine a q)).2 :=
            le_trans (left_le_combine a q) hub
          have haval : a.2 = (l.foldl combine (combine a q)).2 :=
            le_antisymm h4 (by rw [← hval]; exact h3)
          have h6 : (l.foldl combine (combine a q)).1 ≤ a.1 :=
            ih (combine a q) hc hl a (by rw [hca]; exact List.mem_cons_self _ _) haval
          exact le_trans h6 (le_of_lt (ha q (List.mem_cons_self _ _)))
      · exact ih (combine a q) hc hl p (List.mem_cons.2 (Or.inr h2)) hval

theorem pairCombine_length : ∀ l : List (ℕ × Score), (pairCombine l).length ≤ l.length
  | [] => le_refl _
  | [_] => le_refl _
  | _ :: _ :: r => by
    have ih := pairCombine_length r
    simp only [pairCombine, List.length_cons]
    omega

theorem pairCombine_foldl : ∀ (l : List (ℕ × Score)) (a : ℕ × Score),
    (pairCombine l).foldl combine a = l.foldl combine a
  | [], _ => rfl
  | [_], _ => rfl
  | x :: y :: r, a => by
    show (pairCombine r).foldl combine (combine a (combine x y)) =
      r.foldl combine (combine (combine a x) y)
    rw [pairCombine_foldl r, combine_assoc]

theorem treeReduceFuel_foldl (n : ℕ) :
    ∀ (l : List (ℕ × Score)) (x : ℕ × Score),
      l.length ≤ n → treeReduceFuel n (x :: l) = l.foldl combine x := by
  induction n with
  | zero =>
    intro l x h
    have hl : l = [] := List.eq_nil_of_length_eq_zero (Nat.le_zero.1 h)
    subst hl; rfl
  | succ n ih =>
    intro l x h
    match l with
    | [] => rfl
    | y :: r =>
      have h1 : (pairCombine r).length ≤ n :=
        le_trans (pairCombine_length r) (by simpa [Nat.succ_le_succ_iff] using h)
      show treeReduceFuel n (combine x y :: pairCombine r) = (y :: r).foldl combine x
      rw [ih (pairCombine r) (combine x y) h1, pairCombine_foldl]
      rfl

theorem treeReduce_foldl (x : ℕ × Score) (l : List (ℕ × Score)) :
    treeReduce (x :: l) = l.foldl combine x :=
  treeReduceFuel_foldl (x :: l).length l x (by simp)

theorem argmaxTree_eq_argmaxSerial (scores : List Score) :
    argmaxTree scores = argmaxSerial scores := by
  unfold argmaxTree argmaxSerial
  cases h : enumScores scores with
  | nil => rfl
  | cons x l => rw [treeReduce_foldl]

theorem enumFromIdx_mem_of_lt : ∀ (l : List Score) (n j : ℕ), j < l.length →
    (n + j, l.getD j 0) ∈ enumFromIdx n l
  | [], _, _, h => absurd h (by simp)
  | s :: r, n, 0, _ => by simp [enumFromIdx]
  | s :: r, n, j + 1, h => by
    have ih := enumFromIdx_mem_of_lt r (n + 1) j (by simpa using h)
    have harith : n + (j + 1) = (n + 1) + j := by omega
    simp only [enumFromIdx, List.getD_cons_succ, List.mem_cons, harith]
    exact Or.inr ih

theorem enumFromIdx_mem : ∀ (l : List Score) (n : ℕ) (p : ℕ × Score),
    p ∈ enumFromIdx n l → ∃ j, j < l.length ∧ p = (n + j, l.getD j 0)
  | [], _, _, h => absurd h (by simp [enumFromIdx])
  | s :: r, n, p, h => by
    simp only [enumFromIdx, List.mem_cons] at h
    rcases h with h | h
    · exact ⟨0, by simp, by simpa using h⟩
    · rcases enumFromIdx_mem r (n + 1) p h with ⟨j, hj, hp⟩
      refine ⟨j + 1, by simpa using Nat.succ_lt_succ hj, ?_⟩
      rw [hp]
      simp only [List.getD_cons_succ, Prod.mk.injEq, and_true]
      omega

theorem enumFromIdx_lb : ∀ (l : List Score) (n : ℕ) (p : ℕ × Score),
    p ∈ enumFromIdx n l → n ≤ p.1
  | [], _, _, h => absurd h (by simp [enumFromIdx])
  | s :: r, n, p, h => by
    simp only [enumFromIdx, List.mem_cons] at h
    rcases h with h | h
    · rw [h]
    · exact le_trans (Nat.le_succ n) (enumFromIdx_lb r (n + 1) p h)

theorem enumFromIdx_pairwise : ∀ (l : List Score) (n : ℕ),
    (enumFromIdx n l).Pairwise (fun u v => u.1 < v.1)
  | [], _ => by simp [enumFromIdx]
  | s :: r, n => by
    simp only [enumFromIdx, List.pairwise_cons]
    constructor
    · intro q hq
      have := enumFromIdx_lb r (n + 1) q hq
      simpa using lt_of_lt_of_le (Nat.lt_succ_self n) this
    · exact enumFromIdx_pairwise r (n + 1)

theorem argmaxSerial_spec (s : Score) (rest : List Score) :
    argmaxSerial (s :: rest) < (s :: rest).length ∧
    (∀ j, j < (s :: rest).length →
      (s :: rest).getD j 0 ≤ (s :: rest).getD (argmaxSerial (s :: rest)) 0) ∧
    (∀ j, (s :: rest).getD j 0 = (s :: rest).getD (argmaxSerial (s :: rest)) 0 →
      argmaxSerial (s :: rest) ≤ j) := by
  have hE : enumFromIdx 0 (s :: rest) = (0, s) :: enumFromIdx 1 rest := rfl
  set res := (enumFromIdx 1 rest).foldl combine (0, s) with hres
  have hA : argmaxSerial (s :: rest) = res.1 := rfl
  have hmem : res ∈ enumFromIdx 0 (s :: rest) := by
    rw [hE]; exact foldl_combine_mem _ _
  obtain ⟨j0, hj0, hj0p⟩ := enumFromIdx_mem (s :: rest) 0 res hmem
  have hfst : res.1 = j0 := by rw [hj0p]; simp
  have hsnd : res.2 = (s :: rest).getD j0 0 := by rw [hj0p]
  have hval : (s :: rest).getD (argmaxSerial (s :: rest)) 0 = res.2 := by
    rw [hA, hfst]; exact hsnd.symm
  refine ⟨?_, ?_, ?_⟩
  · rw [hA, hfst]; exact hj0
  · intro j hj
    have hkmem : (0 + j, (s :: rest).getD j 0) ∈ (0, s) :: enumFromIdx 1 rest := by
      rw [← hE]; exact enumFromIdx_mem_of_lt (s :: rest) 0 j hj
    have hle := foldl_combine_le (enumFromIdx 1 rest) (0, s) _ hkmem
    rw [hval]
    simpa using hle
  · intro j hvj
    by_cases hjlen : j < (s :: rest).length
    · have hkmem : (0 + j, (s :: rest).getD j 0) ∈ (0, s) :: enumFromIdx 1 rest := by
        rw [← hE]; exact enumFromIdx_mem_of_lt (s :: rest) 0 j hjlen
      have hlt : ∀ q ∈ enumFromIdx 1 rest, (0, s).1 < q.1 := by
        intro q hqm
        have hlb := enumFromIdx_lb rest 1 q hqm
        simpa using lt_of_lt_of_le Nat.zero_lt_one hlb
      have hleft := foldl_combine_leftmost (enumFromIdx 1 rest) (0, s) hlt
        (enumFromIdx_pairwise rest 1) (0 + j, (s :: rest).getD j 0) hkmem
        (by simpa using hvj.trans hval)
      rw [hA]
      simpa using hleft
    · push_neg at hjlen
      rw [hA, hfst]
      exact le_trans (le_of_lt hj0) hjlen

theorem collapseAux_head_ne (raw : List ℕ) :
    ∀ (last : Option ℕ) (x : ℕ),
      (collapseAux last raw).head? = some x → last ≠ some x := by
  induction raw with
  | nil => intro last x hx; simp [collapseAux] at hx
  | cons c r ih =>
    intro last x hx
    by_cases h : last = some c
    · simp only [collapseAux, if_pos h] at hx
      exact ih last x hx
    · simp only [collapseAux, if_neg h, List.head?_cons, Option.some.injEq] at hx
      rw [← hx]; exact h

theorem collapseAux_chain (raw : List ℕ) :
    ∀ last : Option ℕ, List.Chain' (fun a b => a ≠ b) (collapseAux last raw) := by
  induction raw with
  | nil => intro last; simp [collapseAux]
  | cons c r ih =>
    intro last
    by_cases h : last = some c
    · simp only [collapseAux, if_pos h]; exact ih last
    · simp only [collapseAux, if_neg h]
      rw [List.chain'_cons']
      refine ⟨?_, ih (some c)⟩
      intro y hy
      have hne := collapseAux_head_ne r (some c) y (Option.mem_def.1 hy)
      intro hcy
      exact hne (by rw [hcy])

theorem collapseAux_length (raw : List ℕ) :
    ∀ last : Option ℕ, (collapseAux last raw).length ≤ raw.length := by
  induction raw with
  | nil => intro last; simp [collapseAux]
  | cons c r ih =>
    intro last
    by_cases h : last = some c
    · simp only [collapseAux, if_pos h, List.length_cons]
      exact le_trans (ih last) (Nat.le_succ _)
    · simp only [collapseAux, if_neg h, List.length_cons]
      exact Nat.succ_le_succ (ih (some c))

theorem collapsePad_length (raw : List ℕ) (blank T : ℕ) (h : raw.length ≤ T) :
    (collapsePad raw blank T).length = T := by
  unfold collapsePad
  have hs : (collapseScan raw).length ≤ raw.length := collapseAux_length raw none
  rw [List.length_append, List.length_replicate]
  omega

theorem rawPathSerial_length (maxT maxC : ℕ) (mat : List (List Score)) :
    (rawPathSerial maxT maxC mat).length = maxT := by
  simp [rawPathSerial]

theorem rawPathTree_eq_serial (maxT maxC : ℕ) (mat : List (List Score)) :
    rawPathTree maxT maxC mat = rawPathSerial maxT maxC mat := by
  unfold rawPathTree rawPathSerial
  simp only [argmaxTree_eq_argmaxSerial]

theorem decodeRow_length (w : CLWrapper) (mat : List (List Score)) :
    (decodeRow w mat).length = w.maxT := by
  unfold decodeRow
  split_ifs
  · exact collapsePad_length _ _ _ (le_of_eq (rawPathSerial_length _ _ _))
  · exact collapsePad_length _ _ _
      (le_of_eq (by rw [rawPathTree_eq_serial]; exact rawPathSerial_length _ _ _))

theorem compute_snd (w : CLWrapper) (batch : List (List (List Score))) :
    (w.compute batch).2 = (List.range w.batchSize).map
      fun b => decodeRow w (batch.getD b []) := rfl

theorem compute_length (w : CLWrapper) (batch : List (List (List Score))) :
    ((w.compute batch).2).length = w.batchSize := by
  rw [compute_snd]; simp

theorem compute_getD (w : CLWrapper) (batch : List (List (List Score))) (b : ℕ)
    (hb : b < w.batchSize) :
    ((w.compute batch).2).getD b [] = decodeRow w (batch.getD b []) := by
  rw [compute_snd, List.getD_eq_getElem _ _ (by simpa using hb)]
  simp

theorem ctc_length (w : CLWrapper) (batch : List (List (List Score)))
    (classes : List Char) :
    (ctcBestPathCL batch classes w).length = w.batchSize := by
  simp [ctcBestPathCL]

theorem ctc_getD (w : CLWrapper) (batch : List (List (List Score)))
    (classes : List Char) (b : ℕ) (hb : b < w.batchSize) :
    (ctcBestPathCL batch classes w).getD b "" =
      mapRow classes (((w.compute batch).2).getD b []) := by
  unfold ctcBestPathCL
  rw [List.getD_eq_getElem _ _ (by simpa using hb)]
  simp

theorem mapRowAux_eq (classes : List Char) (row : List ℕ) :
    mapRowAux classes row =
      (row.takeWhile fun l => l != classes.length).map
        fun l => classes.getD l '?' := by
  induction row with
  | nil => rfl
  | cons c r ih =>
    by_cases h : c = classes.length
    · simp [mapRowAux, h, List.takeWhile_cons]
    · simp [mapRowAux, h, List.takeWhile_cons, ih]

theorem mapRowAux_append_pad (classes : List Char) (k : ℕ) (xs : List ℕ) :
    mapRowAux classes (xs ++ List.replicate k classes.length) =
      mapRowAux classes xs := by
  induction xs with
  | nil =>
    cases k with
    | zero => rfl
    | succ m => simp [mapRowAux, List.replicate_succ]
  | cons c r ih =>
    by_cases h : c = classes.length
    · simp [mapRowAux, h]
    · simp [mapRowAux, h, ih]

theorem mapRowAux_length_no_blank (classes : List Char) (row : List ℕ)
    (h : classes.length ∉ row) :
    (mapRowAux classes row).length = row.length := by
  induction row with
  | nil => rfl
  | cons c r ih =>
    have hc : ¬ c = classes.length := fun hc => h (by rw [← hc]; exact List.mem_cons_self c r)
    simp only [mapRowAux, if_neg hc, List.length_cons]
    rw [ih (fun hm => h (List.mem_cons.2 (Or.inr hm)))]

/-- C1: end-to-end decoding of Scenario A — with alphabet "ab", T = 2
and per-timestep scores [0.4, 0, 0.6] at both timesteps, the pipeline
(modelled kernels of `compute`, then the text mapping of `ctcBestPathCL`)
yields the raw path [2, 2], the collapsed sequence [2], and the empty
string for that batch element. -/
theorem claim_scenarioA :
    rawPathSerial 2 3 demoMat = [2, 2] ∧
    rawPathTree 2 3 demoMat = [2, 2] ∧
    collapseScan [2, 2] = [2] ∧
    (demoW.compute [demoMat]).2 = [[2, 2]] ∧
    ctcBestPathCL [demoMat] demoClasses demoW = [""] := by
  refine ⟨by decide, by decide, by decide, by decide, by decide⟩

/-- C2: for every input tensor, the fused strategy (kernelVariant 1) and
the two-phase strategy (kernelVariant 2) of `compute` produce identical
result rows for every batch element. -/
theorem claim_variant_equiv (w : CLWrapper) (batch : List (List (List Score))) :
    (({ w with kernelVariant := 1 } : CLWrapper).compute batch).2 =
      (({ w with kernelVariant := 2 } : CLWrapper).compute batch).2 := by
  rw [compute_snd, compute_snd]
  dsimp only [decodeRow]
  norm_num
  simp [rawPathTree_eq_serial]

/-- C3: the per-timestep argmax over a nonempty score list returns a
valid index, its score is maximal, any index attaining the same score is
at least the returned one (lowest index wins ties), and the
tree-reduction evaluation agrees with the serial one. -/
theorem claim_argmax_tiebreak (s : Score) (rest : List Score) :
    argmaxSerial (s :: rest) < (s :: rest).length ∧
    (∀ j, j < (s :: rest).length →
      (s :: rest).getD j 0 ≤ (s :: rest).getD (argmaxSerial (s :: rest)) 0) ∧
    (∀ j, (s :: rest).getD j 0 = (s :: rest).getD (argmaxSerial (s :: rest)) 0 →
      argmaxSerial (s :: rest) ≤ j) ∧
    argmaxTree (s :: rest) = argmaxSerial (s :: rest) :=
  ⟨(argmaxSerial_spec s rest).1, (argmaxSerial_spec s rest).2.1,
   (argmaxSerial_spec s rest).2.2, argmaxTree_eq_argmaxSerial _⟩

/-- C4: the PathCollapser scan output has no two adjacent equal entries,
its (unpadded) length is at most the raw length, and the padded output is
the scan followed by blank padding to length T. -/
theorem claim_collapse_law (raw : List ℕ) (blank T : ℕ) :
    List.Chain' (fun a b => a ≠ b) (collapseScan raw) ∧
    (collapseScan raw).length ≤ raw.length ∧
    collapsePad raw blank T =
      collapseScan raw ++ List.replicate (T - (collapseScan raw).length) blank :=
  ⟨collapseAux_chain raw none, collapseAux_length raw none, rfl⟩

/-- C5: the text mapping scans a row in order, stops at the first entry
equal to the blank `classes.length` (discarding it and the rest), appends
the alphabet character of each earlier entry, and hence its length is at
most the number of (non-blank) entries before the first blank. -/
theorem claim_mapping_law (classes : List Char) (row : List ℕ) :
    mapRowAux classes row =
      (row.takeWhile fun l => l != classes.length).map
        (fun l => classes.getD l '?') ∧
    (mapRow classes row).length ≤
      (row.takeWhile fun l => l != classes.length).length := by
  refine ⟨mapRowAux_eq classes row, ?_⟩
  have h : (mapRow classes row).length = (mapRowAux classes row).length := rfl
  rw [h, mapRowAux_eq classes row, List.length_map]

/-- C6 counterexample: in the demo configuration the claim fails — the
configured maxC is 3 while the alphabet has 2 characters, the blank
value written into a decoded row (Scenario-C input, row [0, 2]) is
2 = maxC - 1, and the text mapping truncates at 2 (row [2, 0] maps to
nothing), which is not the configured maxC. -/
theorem claim_blank_is_maxC_cex :
    demoW.maxC = 3 ∧ demoClasses.length = 2 ∧
    (demoW.compute [demoMatC]).2 = [[0, 2]] ∧
    mapRowAux demoClasses [2, 0] = [] ∧ (2 : ℕ) ≠ demoW.maxC := by
  refine ⟨rfl, rfl, by decide, rfl, by decide⟩

/-- C6 amended: the blank terminator written into every row of compute's
output equals maxC - 1 (the configured maxC counts the blank, one past
the real alphabet of maxC - 1 characters), and the text mapping
truncates each row at exactly that value `classes.length = maxC - 1`
(the padding contributes nothing to the decoded string). -/
theorem claim_blank_terminator (w : CLWrapper) (classes : List Char)
    (batch : List (List (List Score))) (b : ℕ)
    (h : classes.length + 1 = w.maxC) (hb : b < w.batchSize) :
    ∃ scan : List ℕ,
      ((w.compute batch).2).getD b [] =
        scan ++ List.replicate (w.maxT - scan.length) classes.length ∧
      mapRowAux classes (((w.compute batch).2).getD b []) =
        mapRowAux classes scan := by
  rw [compute_getD w batch b hb]
  have hcl : w.maxC - 1 = classes.length := by omega
  unfold decodeRow
  split_ifs
  · refine ⟨collapseScan (rawPathSerial w.maxT w.maxC (batch.getD b [])), ?_, ?_⟩
    · unfold collapsePad; rw [hcl]
    · unfold collapsePad; rw [hcl]; exact mapRowAux_append_pad classes _ _
  · refine ⟨collapseScan (rawPathTree w.maxT w.maxC (batch.getD b [])), ?_, ?_⟩
    · unfold collapsePad; rw [hcl]
    · unfold collapsePad; rw [hcl]; exact mapRowAux_append_pad classes _ _

/-- C6 amended witness: the demo instance (maxC = 3, two-character
alphabet, Scenario-A input, batch element 0). -/
theorem claim_blank_terminator_w :
    ∃ scan : List ℕ,
      ((demoW.compute [demoMat]).2).getD 0 [] =
        scan ++ List.replicate (demoW.maxT - scan.length) demoClasses.length ∧
      mapRowAux demoClasses (((demoW.compute [demoMat]).2).getD 0 []) =
        mapRowAux demoClasses scan :=
  claim_blank_terminator demoW demoClasses [demoMat] 0 (by decide) (by decide)

/-- C7: `compute` is deterministic — a second call on the decoder state
returned by the first call, with the same tensor, returns the same output
buffer, and the output does not depend on the contents of the reused
result buffer at all. -/
theorem claim_compute_deterministic (w : CLWrapper)
    (batch : List (List (List Score))) (r : List (List ℕ)) :
    (((w.compute batch).1).compute batch).2 = (w.compute batch).2 ∧
    (({ w with res := r } : CLWrapper).compute batch).2 = (w.compute batch).2 :=
  ⟨rfl, rfl⟩

/-- C8 counterexample: construction with the non-positive size maxC = 0
(and supported kernelVariant 2) passes every repository-side check and
yields an instance, so non-positive sizes do not fail fast. -/
theorem claim_config_check_cex :
    CLWrapper.init 1 1 0 2 = some ⟨1, 1, 0, 2, [[0]]⟩ := rfl

/-- C8 amended: construction fails fast (returns no instance) exactly
for an unsupported strategy value (the `assert` on kernelVariant) or a
negative size (rejected by the `np.zeros` allocations); zero sizes pass
the constructor's own validation. -/
theorem claim_config_check (batchSize maxT maxC kernelVariant : Int) :
    CLWrapper.init batchSize maxT maxC kernelVariant = none ↔
      ¬(kernelVariant = 1 ∨ kernelVariant = 2) ∨
        batchSize < 0 ∨ maxT < 0 ∨ maxC < 0 := by
  unfold CLWrapper.init
  split_ifs with h
  · apply iff_of_false
    · simp
    · push_neg
      obtain ⟨hA, hB, hT, hC⟩ := h
      exact ⟨hA, by omega, by omega, by omega⟩
  · apply iff_of_true rfl
    by_cases hA : kernelVariant = 1 ∨ kernelVariant = 2
    · right
      have hB : ¬(0 ≤ batchSize ∧ 0 ≤ maxT ∧ 0 ≤ maxC) := fun hx => h ⟨hA, hx⟩
      omega
    · exact Or.inl hA

/-- C9 counterexample: the demo itself passes a tensor whose shape
(1, 2, 3) differs from the configured (batchSize, maxC, maxT) =
(1, 3, 2), yet `compute` accepts it and produces a result row instead of
failing fast. -/
theorem claim_shape_check_cex :
    tensorShape [demoMat] ≠ (demoW.batchSize, demoW.maxC, demoW.maxT) ∧
    (demoW.compute [demoMat]).2 = [[2, 2]] := by
  refine ⟨by decide, by decide⟩

/-- C9 amended: `compute` performs no shape validation — for every input
tensor it produces a full result of batchSize rows of maxT entries. -/
theorem claim_compute_accepts (w : CLWrapper) (batch : List (List (List Score)))
    (b : ℕ) (hb : b < w.batchSize) :
    ((w.compute batch).2).length = w.batchSize ∧
    (((w.compute batch).2).getD b []).length = w.maxT := by
  refine ⟨compute_length w batch, ?_⟩
  rw [compute_getD w batch b hb]
  exact decodeRow_length w _

/-- C9 amended witness: the demo input, batch element 0. -/
theorem claim_compute_accepts_w :
    ((demoW.compute [demoMat]).2).length = demoW.batchSize ∧
    (((demoW.compute [demoMat]).2).getD 0 []).length = demoW.maxT :=
  claim_compute_accepts demoW [demoMat] 0 (by decide)

/-- C10: `ctcBestPathCL` returns exactly batchSize strings in batch
order (the b-th string is the mapping of the b-th result row), and a
result row containing no blank maps all of its maxT entries. -/
theorem claim_batch_mapping (w : CLWrapper) (batch : List (List (List Score)))
    (classes : List Char) (b : ℕ) (hb : b < w.batchSize)
    (hnb : classes.length ∉ ((w.compute batch).2).getD b []) :
    (ctcBestPathCL batch classes w).length = w.batchSize ∧
    (ctcBestPathCL batch classes w).getD b "" =
      mapRow classes (((w.compute batch).2).getD b []) ∧
    ((ctcBestPathCL batch classes w).getD b "").length = w.maxT := by
  refine ⟨ctc_length w batch classes, ctc_getD w batch classes b hb, ?_⟩
  rw [ctc_getD w batch classes b hb]
  have h1 : (mapRow classes (((w.compute batch).2).getD b [])).length =
      (mapRowAux classes (((w.compute batch).2).getD b [])).length := rfl
  rw [h1, mapRowAux_length_no_blank classes _ hnb, compute_getD w batch b hb]
  exact decodeRow_length w _

/-- C10 witness: the Scenario-B style input, whose decoded row [0, 1]
contains no blank and maps to "ab" of length maxT = 2. -/
theorem claim_batch_mapping_w :
    (ctcBestPathCL [demoMatB] demoClasses demoW).length = demoW.batchSize ∧
    (ctcBestPathCL [demoMatB] demoClasses demoW).getD 0 "" =
      mapRow demoClasses (((demoW.compute [demoMatB]).2).getD 0 []) ∧
    ((ctcBestPathCL [demoMatB] demoClasses demoW).getD 0 "").length = demoW.maxT :=
  claim_batch_mapping demoW [demoMatB] demoClasses 0 (by decide) (by decide)
